import Mathlib

/-!
Verification of the contact-sniffer extractor (`starter.py`).

The core of the program is `parse_contact_info`: two regular-expression
matchers (French phone numbers and e-mail addresses) run with `findall`
semantics over a raw table-cell string, a per-line residue computation that
deletes every matched substring from each line, and a pandas-style
deduplication (`drop_duplicates` on all columns except `source_file` and
`raw_extraction`).

Strings are modelled as `List Char` (Python `str` is a sequence of code
points).  The regexes are embedded as hand-rolled matchers that follow the
Python `re` backtracking semantics of the two concrete patterns; wherever a
greedy sub-pattern needs no backtracking because its character class is
disjoint from what follows, this is noted at the definition.
-/

/-- Python whitespace for `str.strip()` and the `\s` class (ASCII part:
space, tab, newline, carriage return, vertical tab, form feed). -/
def isPySpace (c : Char) : Bool :=
  c = ' ' || c = '\t' || c = '\n' || c = '\x0d' || c = '\x0b' || c = '\x0c'

/-- Character class `[\s.-]`: the separators allowed between phone digit groups. -/
def isSepClass (c : Char) : Bool :=
  isPySpace c || c = '.' || c = '-'

/-- Character class `\d` (ASCII digits, the only ones relevant here). -/
def isDigitC (c : Char) : Bool :=
  '0' ≤ c && c ≤ '9'

/-- Character class `[1-9]`. -/
def isNonZeroDigit (c : Char) : Bool :=
  '1' ≤ c && c ≤ '9'

/-- Python `str.strip()`: drop leading and trailing whitespace. -/
def pyStrip (l : List Char) : List Char :=
  ((l.dropWhile isPySpace).reverse.dropWhile isPySpace).reverse

/-- Python `raw_text.split('\n')`: split at every newline, keeping empty pieces. -/
def splitLines : List Char → List (List Char)
  | [] => [[]]
  | c :: r =>
    if c = '\n' then [] :: splitLines r
    else
      match splitLines r with
      | [] => [[c]]
      | h :: t => (c :: h) :: t

/-- Python `raw_text.replace('\n', ' | ')` (line 265 of the source). -/
def rawExtraction (l : List Char) : List Char :=
  l.foldr (fun c acc => (if c = '\n' then [' ', '|', ' '] else [c]) ++ acc) []

/-- Helper for `replaceAll`; the fuel argument is only there for structural
termination and is always called with at least the length of the string. -/
def replaceAllAux (pat : List Char) : Nat → List Char → List Char
  | 0, s => s
  | _ + 1, [] => []
  | fuel + 1, c :: r =>
    if pat.isPrefixOf (c :: r) then replaceAllAux pat fuel ((c :: r).drop pat.length)
    else c :: replaceAllAux pat fuel r

/-- Python `s.replace(pat, "")`: delete every occurrence of `pat`, scanning
left to right without re-scanning produced text, exactly as CPython does. -/
def replaceAll (s pat : List Char) : List Char :=
  if pat = [] then s else replaceAllAux pat s.length s

/-- Matcher for `\d{2}` : exactly two digits. -/
def matchTwo : List Char → Option (List Char × List Char)
  | a :: b :: r => if isDigitC a && isDigitC b then some ([a, b], r) else none
  | _ => none

/-- Matcher for one group `[\s.-]*\d{2}`.  The greedy star needs no
backtracking: the separator class is disjoint from `\d`, so giving back
separator characters can never let `\d{2}` succeed. -/
def matchGroup (l : List Char) : Option (List Char × List Char) :=
  match matchTwo (l.dropWhile isSepClass) with
  | some (d, r) => some (l.takeWhile isSepClass ++ d, r)
  | none => none

/-- Matcher for `(?:[\s.-]*\d{2}){n}`. -/
def matchGroups : Nat → List Char → Option (List Char × List Char)
  | 0, l => some ([], l)
  | n + 1, l =>
    match matchGroup l with
    | some (g, r) =>
      match matchGroups n r with
      | some (gs, r') => some (g ++ gs, r')
      | none => none
    | none => none

/-- Matcher for the phone tail `\s*[1-9](?:[\s.-]*\d{2}){4}` after the
prefix alternation.  `\s*` needs no backtracking: whitespace is disjoint
from `[1-9]`. -/
def phoneTail (l : List Char) : Option (List Char × List Char) :=
  match l.dropWhile isPySpace with
  | c :: r =>
    if isNonZeroDigit c then
      match matchGroups 4 r with
      | some (gs, rest) => some (l.takeWhile isPySpace ++ c :: gs, rest)
      | none => none
    else none
  | [] => none

/-- First alternative `(?:\+|00)33` of the phone pattern's leading
alternation; the inner `\+|00` is deterministic (`+` and `0` differ). -/
def phoneIntl (l : List Char) : Option (List Char × List Char) :=
  match l with
  | c1 :: c2 :: c3 :: r =>
    if c1 = '+' ∧ c2 = '3' ∧ c3 = '3' then
      (phoneTail r).map (fun p => (c1 :: c2 :: c3 :: p.1, p.2))
    else
      match r with
      | c4 :: r' =>
        if c1 = '0' ∧ c2 = '0' ∧ c3 = '3' ∧ c4 = '3' then
          (phoneTail r').map (fun p => (c1 :: c2 :: c3 :: c4 :: p.1, p.2))
        else none
      | [] => none
  | _ => none

/-- Second alternative `0` of the leading alternation. -/
def phoneZero (l : List Char) : Option (List Char × List Char) :=
  match l with
  | c :: r => if c = '0' then (phoneTail r).map (fun p => (c :: p.1, p.2)) else none
  | [] => none

/-- Anchored matcher for the source's phone regex
`(?:(?:\+|00)33|0)\s*[1-9](?:[\s.-]*\d{2}){4}` (line 33): try the
international alternative first and fall back to the bare `0`, exactly the
backtracking order of Python's alternation. -/
def phoneMatchAt (l : List Char) : Option (List Char × List Char) :=
  match phoneIntl l with
  | some x => some x
  | none => phoneZero l

/-- Character class `[a-zA-Z0-9._%+-]` (local part of the e-mail regex). -/
def isLocalChar (c : Char) : Bool :=
  c.isAlpha || isDigitC c || c = '.' || c = '_' || c = '%' || c = '+' || c = '-'

/-- Character class `[a-zA-Z0-9.-]` (domain part of the e-mail regex). -/
def isDomainChar (c : Char) : Bool :=
  c.isAlpha || isDigitC c || c = '.' || c = '-'

/-- Matcher for `\.[a-zA-Z]{2,}`: a literal dot, then a maximal run of at
least two letters (the run is maximal because nothing follows it in the
pattern). -/
def dotTld : List Char → Option (List Char × List Char)
  | c :: r =>
    if c = '.' ∧ 2 ≤ (r.takeWhile Char.isAlpha).length then
      some (c :: r.takeWhile Char.isAlpha, r.dropWhile Char.isAlpha)
    else none
  | [] => none

/-- Matcher for `[a-zA-Z0-9.-]+\.[a-zA-Z]{2,}` with the greedy
backtracking of Python: prefer consuming another domain character, and on
failure of everything longer, close the `+` here and try `\.[a-zA-Z]{2,}`. -/
def domainPlus : List Char → Option (List Char × List Char)
  | [] => none
  | c :: r =>
    if isDomainChar c then
      match domainPlus r with
      | some (m, rest) => some (c :: m, rest)
      | none => (dotTld r).map (fun p => (c :: p.1, p.2))
    else none

/-- Anchored matcher for the source's e-mail regex
`[a-zA-Z0-9._%+-]+@[a-zA-Z0-9.-]+\.[a-zA-Z]{2,}` (line 35).  The greedy
local part needs no backtracking: `@` is not in the local class, so giving
back a consumed local character can never expose an `@`. -/
def emailMatchAt (l : List Char) : Option (List Char × List Char) :=
  match l.takeWhile isLocalChar with
  | [] => none
  | a :: loc =>
    match l.dropWhile isLocalChar with
    | c :: r =>
      if c = '@' then (domainPlus r).map (fun p => ((a :: loc) ++ c :: p.1, p.2))
      else none
    | [] => none

/-- Scanning loop of Python `pattern.findall`: at each position try the
anchored matcher; on success record the start position and the matched
text and resume after the match, otherwise advance one character.  The
fuel argument exists only for structural termination; both matchers always
consume at least one character on success, and callers supply fuel larger
than the list length, so the fuel never runs out. -/
def findallPosAux (matchAt : List Char → Option (List Char × List Char)) :
    Nat → Nat → List Char → List (Nat × List Char)
  | 0, _, _ => []
  | _ + 1, _, [] => []
  | fuel + 1, pos, c :: r =>
    match matchAt (c :: r) with
    | some (m, rest) =>
      (pos, m) :: findallPosAux matchAt fuel (pos + ((c :: r).length - rest.length)) rest
    | none => findallPosAux matchAt fuel (pos + 1) r

/-- Python `pattern.findall(text)` together with each match's start position. -/
def pyFindallPos (matchAt : List Char → Option (List Char × List Char))
    (l : List Char) : List (Nat × List Char) :=
  findallPosAux matchAt (l.length + 1) 0 l

/-- Python `pattern.findall(text)`: the matched substrings in scan order. -/
def pyFindall (matchAt : List Char → Option (List Char × List Char))
    (l : List Char) : List (List Char) :=
  (pyFindallPos matchAt l).map Prod.snd

/-- Output of `parse_contact_info`, with the `phone_i`/`email_i` dictionary
keys flattened into ordered lists and the optional `address` key modelled
as an `Option` (the source sets `address` only when more than one residual
line exists, or to the empty string when none exists).  `source` is
attached by `process_file` after parsing. -/
structure ContactRecord where
  name : List Char
  address : Option (List Char)
  phones : List (List Char)
  emails : List (List Char)
  raw : List Char
  source : Option (List Char)
deriving DecidableEq, Repr

/-- Python `" ".join(xs)`. -/
def joinSp : List (List Char) → List Char
  | [] => []
  | [a] => a
  | a :: b :: t => a ++ ' ' :: joinSp (b :: t)

/-- Line 219 of the source: split the raw cell on newlines, strip each
line, and drop lines that become empty. -/
def stripLines (raw : List Char) : List (List Char) :=
  ((splitLines raw).map pyStrip).filter (fun l => !l.isEmpty)

/-- Lines 234-247 of the source: delete every matched phone substring, then
every matched e-mail substring, from one line, then strip it. -/
def cleanLine (phones emails : List (List Char)) (line : List Char) : List Char :=
  pyStrip (emails.foldl replaceAll (phones.foldl replaceAll line))

/-- Lines 232-252 of the source: the residual lines of a cell, keeping a
cleaned line only when more than one character remains. -/
def residualLines (raw : List Char) : List (List Char) :=
  ((stripLines raw).map
      (cleanLine (pyFindall phoneMatchAt raw) (pyFindall emailMatchAt raw))).filter
    (fun l => decide (1 < l.length))

/-- Lines 211-267 of the source: `parse_contact_info`. -/
def parse_contact_info (raw : List Char) : ContactRecord :=
  { name :=
      match residualLines raw with
      | [] => "Unknown".toList
      | n :: _ => n
    address :=
      match residualLines raw with
      | [] => some []
      | _ :: rest => if rest.isEmpty then none else some (joinSp rest)
    phones := pyFindall phoneMatchAt raw
    emails := pyFindall emailMatchAt raw
    raw := rawExtraction raw
    source := none }

/-- Lines 89-93 of the source: cells whose length is below 5 are discarded
before `parse_contact_info` runs; this is the spec's `parse`. -/
def parse (raw : List Char) : Option ContactRecord :=
  if raw.length < 5 then none else some (parse_contact_info raw)

/-- Deduplication key: every field except `source` and `raw`
(`cols_to_check` at line 276 of the source). -/
def recordKey (r : ContactRecord) :
    List Char × Option (List Char) × List (List Char) × List (List Char) :=
  (r.name, r.address, r.phones, r.emails)

/-- Row equality used by `drop_duplicates` on the checked columns; a column
absent from both rows (both `none`) compares equal, as pandas treats two
missing values as equal when detecting duplicates. -/
def sameKeyB (r1 r2 : ContactRecord) : Bool :=
  decide (recordKey r1 = recordKey r2)

/-- Scanning loop of `drop_duplicates(keep='first')`: a row is kept exactly
when no earlier row (the accumulated `pre`) agrees with it on the checked
columns. -/
def dedupeGo : List ContactRecord → List ContactRecord → List ContactRecord
  | _, [] => []
  | pre, r :: rs =>
    if pre.all (fun p => !sameKeyB p r) then r :: dedupeGo (pre ++ [r]) rs
    else dedupeGo (pre ++ [r]) rs

/-- Lines 273-289 of the source: deduplicate and report how many rows were
removed. -/
def dedupe (rs : List ContactRecord) : List ContactRecord × Nat :=
  (dedupeGo [] rs, rs.length - (dedupeGo [] rs).length)

/-- Modelled from the spec's words for the refinement conjunct of the
deduplication claim: retain a record exactly when no earlier record in the
original order is a duplicate of it ("retain the first occurrence in
original order; drop subsequent ones"). -/
def specFirstOccurrences (rs : List ContactRecord) : List ContactRecord :=
  ((rs.enum).filter (fun p => (rs.take p.1).all (fun q => !sameKeyB q p.2))).map Prod.snd

/-- Shape of one group separator in the claim about the phone pattern: a
space, a dot, a hyphen, or nothing, chosen independently per group. -/
def okSepOpt (s : List Char) : Prop :=
  s = [] ∨ s = [' '] ∨ s = ['.'] ∨ s = ['-']

/-- Sample record with no `address` column, as produced for a cell with
exactly one residual line. -/
def recNoAddrA : ContactRecord :=
  { name := "Jean Dupont".toList, address := none, phones := [], emails := [],
    raw := "Jean Dupont".toList, source := some "fileA.pdf".toList }

/-- Same checked columns as `recNoAddrA` but a different source and raw text. -/
def recNoAddrB : ContactRecord :=
  { name := "Jean Dupont".toList, address := none, phones := [], emails := [],
    raw := "copy".toList, source := some "fileB.docx".toList }

/-- Record carrying an explicitly empty `address`, distinct under
deduplication from a record whose `address` column is absent. -/
def recEmptyAddr : ContactRecord :=
  { name := "Jean Dupont".toList, address := some [], phones := [], emails := [],
    raw := "other".toList, source := some "fileC.odt".toList }

/-- Record with a single phone entry, to witness that differing
`phone_i` column counts rule out duplication. -/
def recOnePhone : ContactRecord :=
  { name := "Jean Dupont".toList, address := none,
    phones := ["0612345678".toList], emails := [],
    raw := "p".toList, source := none }

/-- Input for the reappearing-match counterexample: the second line holds
the international number `+33 6 98 76 54 32` wedged between `06` and
`12 34 56 78`, so deleting it concatenates the pieces into the first
line's matched number `0612 34 56 78`. -/
def reappearRaw : List Char :=
  "0612 34 56 78\n06+33 6 98 76 54 3212 34 56 78".toList

/-- Cell of the spec's residual-line example. -/
def telCell : List Char := "Tel: 0033 6 12.34-56.78 (mobile)".toList

/-- Digits are not phone-group separators: the classes `[\s.-]` and `\d`
are disjoint, which is what makes the greedy separator star exact. -/
theorem not_sep_of_digit (a : Char) (ha : isDigitC a = true) : isSepClass a = false := by
  by_contra hc
  rw [Bool.not_eq_false] at hc
  simp only [isSepClass, isPySpace, Bool.or_eq_true, decide_eq_true_eq] at hc
  rcases hc with (((((((h | h) | h) | h) | h) | h) | h) | h) <;>
    subst h <;> exact absurd ha (by decide)

/-- Digits are not whitespace. -/
theorem not_pyspace_of_digit (a : Char) (ha : isDigitC a = true) : isPySpace a = false := by
  have h := not_sep_of_digit a ha
  simp only [isSepClass, Bool.or_eq_false_iff] at h
  exact h.1.1

/-- A `[1-9]` digit is a digit. -/
theorem isDigitC_of_nonzero (d : Char) (hd : isNonZeroDigit d = true) : isDigitC d = true := by
  simp only [isNonZeroDigit, Bool.and_eq_true, decide_eq_true_eq] at hd
  simp only [isDigitC, Bool.and_eq_true, decide_eq_true_eq]
  exact ⟨le_trans (by decide) hd.1, hd.2⟩

/-- A `[1-9]` digit is not the character `0`. -/
theorem ne_zero_of_nonzero (d : Char) (hd : isNonZeroDigit d = true) : d ≠ '0' := by
  intro h
  subst h
  exact absurd hd (by decide)

/-- Residual lines always have more than one character (the filter at
line 251 of the source). -/
theorem residual_mem_length (raw : List Char) :
    ∀ x ∈ residualLines raw, 1 < x.length := by
  intro x hx
  exact of_decide_eq_true (List.mem_filter.mp hx).2

/-- C2 (amended): the guard at line 90 compares the raw cell's length, not
its trimmed length, against 5; every input of length below 5 is discarded.
Cells produced by the extraction adapters are already stripped, so for
those the two lengths agree. -/
theorem c2_short_input_none (raw : List Char) (h : raw.length < 5) : parse raw = none := by
  simp [parse, h]

theorem c2_short_input_none_witness : "ab".toList.length < 5 ∧ parse "ab".toList = none :=
  ⟨by decide, c2_short_input_none "ab".toList (by decide)⟩

/-- C2 counterexample: six spaces trim to the empty string (trimmed length
0 < 5) yet `parse` does not return absent, because the guard never trims. -/
theorem c2_counterexample :
    (pyStrip "      ".toList).length < 5 ∧ parse "      ".toList ≠ none :=
  ⟨by decide, by decide⟩

/-- C9: `parse` is total: every input either falls under the length guard
and yields absent, or yields a record.  Termination, purity and freedom
from exceptions hold by construction of the model, which is a total
function over the input characters. -/
theorem c9_parse_total (raw : List Char) :
    (raw.length < 5 ∧ parse raw = none) ∨ ∃ r : ContactRecord, parse raw = some r := by
  by_cases h : raw.length < 5
  · exact Or.inl ⟨h, by simp [parse, h]⟩
  · exact Or.inr ⟨parse_contact_info raw, by simp [parse, h]⟩

/-- C1 (amended): with at least one residual line, `name` is the first
residual line and `address` is the remaining residual lines joined by a
single space, except that `address` is absent (the key is never set) when
exactly one residual line exists; with no residual lines, `name` is the
sentinel and `address` is the empty string; `name` is never empty. -/
theorem c1_name_address (raw : List Char) :
    (residualLines raw = [] →
      (parse_contact_info raw).name = "Unknown".toList ∧
      (parse_contact_info raw).address = some []) ∧
    (∀ n rest, residualLines raw = n :: rest →
      (parse_contact_info raw).name = n ∧
      (parse_contact_info raw).address = (if rest.isEmpty then none else some (joinSp rest))) ∧
    (parse_contact_info raw).name ≠ [] := by
  rcases hr : residualLines raw with _ | ⟨n, rest⟩
  · refine ⟨fun _ => ⟨?_, ?_⟩, ?_, ?_⟩
    · simp [parse_contact_info, hr]
    · simp [parse_contact_info, hr]
    · intro n rest h
      exact nomatch h
    · simp only [parse_contact_info, hr]
      decide
  · have hn : 1 < n.length :=
      residual_mem_length raw n (by rw [hr]; exact List.mem_cons_self n rest)
    refine ⟨?_, ?_, ?_⟩
    · intro h
      exact nomatch h
    · intro n' rest' h
      injection h with h1 h2
      subst h1
      subst h2
      refine ⟨?_, ?_⟩ <;> simp [parse_contact_info, hr]
    · simp only [parse_contact_info, hr]
      intro h
      rw [h] at hn
      exact absurd hn (by decide)

theorem c1_name_address_witness :
    (parse_contact_info "Jean Dupont\n12 Rue de Paris".toList).name = "Jean Dupont".toList ∧
    (parse_contact_info "Jean Dupont\n12 Rue de Paris".toList).address =
      some "12 Rue de Paris".toList := by
  have h := (c1_name_address "Jean Dupont\n12 Rue de Paris".toList).2.1
    "Jean Dupont".toList ["12 Rue de Paris".toList] (by decide)
  exact ⟨h.1, h.2.trans (by decide)⟩

/-- C1 counterexample: a cell with exactly one residual line gets no
`address` key at all (modelled as `none`), not an empty-string address. -/
theorem c1_counterexample :
    (residualLines "Jean Dupont".toList).length = 1 ∧
    (parse_contact_info "Jean Dupont".toList).address = none ∧
    (parse_contact_info "Jean Dupont".toList).address ≠ some [] :=
  ⟨by decide, by decide, by decide⟩

/-- C8 (amended): on the spec's example line the matcher does match
`0033 6 12.34-56.78`, but deleting it leaves the two spaces that surrounded
it adjacent, and the final strip only trims the ends: the residual line is
`Tel:  (mobile)` with a double space, not `Tel: (mobile)`. -/
theorem c8_tel_residual :
    pyFindall phoneMatchAt telCell = ["0033 6 12.34-56.78".toList] ∧
    residualLines telCell = ["Tel:  (mobile)".toList] :=
  ⟨by decide, by decide⟩

/-- C8 counterexample: the residual line is not `Tel: (mobile)`. -/
theorem c8_counterexample :
    residualLines telCell ≠ ["Tel: (mobile)".toList] := by
  decide

/-- Deduplication only ever drops rows: the kept rows are a sublist of the
input, in their original order. -/
theorem dedupeGo_sublist (l : List ContactRecord) : ∀ pre, (dedupeGo pre l).Sublist l := by
  induction l with
  | nil =>
    intro pre
    exact List.Sublist.refl []
  | cons a rs ih =>
    intro pre
    simp only [dedupeGo]
    split
    · exact List.Sublist.cons₂ a (ih _)
    · exact List.Sublist.cons a (ih _)

/-- A kept row never shares its key with any row of the processed prefix. -/
theorem dedupeGo_mem_pre (l : List ContactRecord) :
    ∀ pre r, r ∈ dedupeGo pre l → ∀ p ∈ pre, sameKeyB p r = false := by
  induction l with
  | nil =>
    intro pre r h
    simp [dedupeGo] at h
  | cons a rs ih =>
    intro pre r h p hp
    by_cases hcond : (pre.all fun q => !sameKeyB q a) = true
    · simp only [dedupeGo] at h
      rw [if_pos hcond] at h
      rcases List.mem_cons.mp h with h1 | h2
      · subst h1
        have := List.all_eq_true.mp hcond p hp
        rwa [Bool.not_eq_true'] at this
      · exact ih (pre ++ [a]) r h2 p (List.mem_append_left [a] hp)
    · simp only [dedupeGo] at h
      rw [if_neg hcond] at h
      exact ih (pre ++ [a]) r h p (List.mem_append_left [a] hp)

/-- No two kept rows share a deduplication key. -/
theorem dedupeGo_pairwise (l : List ContactRecord) :
    ∀ pre, (dedupeGo pre l).Pairwise (fun a b => sameKeyB a b = false) := by
  induction l with
  | nil =>
    intro pre
    exact List.Pairwise.nil
  | cons a rs ih =>
    intro pre
    by_cases hcond : (pre.all fun q => !sameKeyB q a) = true
    · simp only [dedupeGo]
      rw [if_pos hcond]
      refine List.pairwise_cons.mpr ⟨?_, ih _⟩
      intro b hb
      exact dedupeGo_mem_pre rs (pre ++ [a]) b hb a (by simp)
    · simp only [dedupeGo]
      rw [if_neg hcond]
      exact ih _

/-- A list whose rows already have pairwise distinct keys passes through
deduplication unchanged. -/
theorem dedupeGo_eq_self (l : List ContactRecord) :
    ∀ pre, (∀ p ∈ pre, ∀ r ∈ l, sameKeyB p r = false) →
      l.Pairwise (fun a b => sameKeyB a b = false) → dedupeGo pre l = l := by
  induction l with
  | nil =>
    intro pre _ _
    rfl
  | cons a rs ih =>
    intro pre hpre hpw
    have hcond : (pre.all fun q => !sameKeyB q a) = true := by
      rw [List.all_eq_true]
      intro p hp
      rw [Bool.not_eq_true']
      exact hpre p hp a (List.mem_cons_self a rs)
    simp only [dedupeGo]
    rw [if_pos hcond]
    congr 1
    apply ih
    · intro p hp r hr
      rcases List.mem_append.mp hp with h1 | h2
      · exact hpre p h1 r (List.mem_cons_of_mem a hr)
      · have hpa : p = a := by simpa using h2
        subst hpa
        exact (List.pairwise_cons.mp hpw).1 r hr
    · exact (List.pairwise_cons.mp hpw).2

/-- The scanning deduplication equals the positional description: row `i`
is kept exactly when no earlier row agrees with it on the checked columns. -/
theorem dedupeGo_enumFrom (l : List ContactRecord) :
    ∀ pre, dedupeGo pre l =
      ((List.enumFrom pre.length l).filter
        (fun p => ((pre ++ l).take p.1).all (fun q => !sameKeyB q p.2))).map Prod.snd := by
  induction l with
  | nil =>
    intro pre
    simp [dedupeGo]
  | cons a rs ih =>
    intro pre
    have htake : (pre ++ a :: rs).take pre.length = pre := List.take_left' rfl
    have iha := ih (pre ++ [a])
    rw [show (pre ++ [a]).length = pre.length + 1 by simp,
      show (pre ++ [a]) ++ rs = pre ++ a :: rs by simp] at iha
    simp only [dedupeGo, List.enumFrom_cons, List.filter_cons, htake]
    by_cases hcond : (pre.all fun q => !sameKeyB q a) = true
    · rw [if_pos hcond, if_pos hcond, List.map_cons, iha]
    · rw [if_neg hcond, if_neg hcond, iha]

/-- The kept rows coincide with the spec's first-occurrence description. -/
theorem dedupe_eq_spec (rs : List ContactRecord) :
    dedupeGo [] rs = specFirstOccurrences rs := by
  have h := dedupeGo_enumFrom rs []
  simpa [specFirstOccurrences, List.enum] using h

/-- C6: deduplication drops a record exactly when an earlier record agrees
on every field except `source` and `raw` (name, address, and the
phone/e-mail lists by position and value, so differing entry counts are
never duplicates); the first occurrence is retained, kept records stay in
their original order (they form a sublist of the input), and the removed
count is reported as the difference of lengths. -/
theorem c6_dedupe_spec (rs : List ContactRecord) :
    ((dedupe rs).1).Sublist rs ∧
    (dedupe rs).1 = specFirstOccurrences rs ∧
    (dedupe rs).2 = rs.length - (dedupe rs).1.length ∧
    (∀ r1 r2 : ContactRecord, sameKeyB r1 r2 = true ↔
      (r1.name = r2.name ∧ r1.address = r2.address ∧ r1.phones = r2.phones ∧
        r1.emails = r2.emails)) ∧
    (∀ r1 r2 : ContactRecord,
      r1.phones.length ≠ r2.phones.length ∨ r1.emails.length ≠ r2.emails.length →
        sameKeyB r1 r2 = false) := by
  refine ⟨dedupeGo_sublist rs [], dedupe_eq_spec rs, rfl, ?_, ?_⟩
  · intro r1 r2
    simp [sameKeyB, recordKey, Prod.ext_iff]
  · intro r1 r2 h
    cases hk : sameKeyB r1 r2
    · rfl
    · exfalso
      have hkey : recordKey r1 = recordKey r2 := of_decide_eq_true hk
      rcases h with h | h
      · exact h (congrArg (fun t => t.2.2.1.length) hkey)
      · exact h (congrArg (fun t => t.2.2.2.length) hkey)

theorem c6_dedupe_spec_witness :
    sameKeyB recNoAddrA recNoAddrB = true ∧ sameKeyB recOnePhone recNoAddrA = false :=
  ⟨((c6_dedupe_spec []).2.2.2.1 recNoAddrA recNoAddrB).mpr (by decide),
    (c6_dedupe_spec []).2.2.2.2 recOnePhone recNoAddrA (Or.inl (by decide))⟩

/-- C7: deduplication is idempotent: running it on its own kept output
keeps everything and removes zero further records. -/
theorem c7_dedupe_idempotent (rs : List ContactRecord) :
    dedupe ((dedupe rs).1) = ((dedupe rs).1, 0) := by
  have h1 : dedupeGo [] (dedupeGo [] rs) = dedupeGo [] rs :=
    dedupeGo_eq_self (dedupeGo [] rs) [] (by intro p hp; simp at hp)
      (dedupeGo_pairwise rs [])
  simp [dedupe, h1]

/-- C10: a column absent from two records (`none`, pandas `NaN`) compares
equal in deduplication, so two records can be duplicates although neither
carries the compared field; a column present in one record and absent in
the other always compares unequal. -/
theorem c10_absent_fields (r1 r2 : ContactRecord)
    (hn : r1.name = r2.name) (hp : r1.phones = r2.phones) (he : r1.emails = r2.emails) :
    (r1.address = none → r2.address = none →
      sameKeyB r1 r2 = true ∧ (dedupe [r1, r2]).1 = [r1] ∧ (dedupe [r1, r2]).2 = 1) ∧
    (∀ a, r1.address = some a → r2.address = none →
      sameKeyB r1 r2 = false ∧ (dedupe [r1, r2]).1 = [r1, r2] ∧ (dedupe [r1, r2]).2 = 0) := by
  constructor
  · intro h1 h2
    have hk : sameKeyB r1 r2 = true := by
      simp [sameKeyB, recordKey, hn, hp, he, h1, h2]
    refine ⟨hk, ?_, ?_⟩
    · simp [dedupe, dedupeGo, hk]
    · simp [dedupe, dedupeGo, hk]
  · intro a h1 h2
    have hk : sameKeyB r1 r2 = false := by
      simp [sameKeyB, recordKey, hn, hp, he, h1, h2]
    refine ⟨hk, ?_, ?_⟩
    · simp [dedupe, dedupeGo, hk]
    · simp [dedupe, dedupeGo, hk]

theorem c10_absent_fields_witness :
    sameKeyB recNoAddrA recNoAddrB = true ∧
    (dedupe [recNoAddrA, recNoAddrB]).1 = [recNoAddrA] ∧
    (dedupe [recNoAddrA, recNoAddrB]).2 = 1 :=
  (c10_absent_fields recNoAddrA recNoAddrB rfl rfl rfl).1 rfl rfl

/-- Scanning an empty remainder yields no further matches, whatever the fuel. -/
theorem findallPosAux_nil (f : List Char → Option (List Char × List Char)) :
    ∀ fuel pos, findallPosAux f fuel pos [] = [] := by
  intro fuel pos
  cases fuel <;> rfl

/-- When the anchored matcher consumes a whole nonempty string, `findall`
returns exactly that one match. -/
theorem findall_single (f : List Char → Option (List Char × List Char))
    (c : Char) (r : List Char) (m : List Char) (h : f (c :: r) = some (m, [])) :
    pyFindall f (c :: r) = [m] := by
  simp only [pyFindall, pyFindallPos, findallPosAux, h, findallPosAux_nil, List.map_cons,
    List.map_nil]

/-- A separator run followed by a digit splits exactly at the digit. -/
theorem span_sep_digit (s : List Char) (hs : okSepOpt s) (a : Char)
    (ha : isDigitC a = true) (rest : List Char) :
    (s ++ a :: rest).takeWhile isSepClass = s ∧
    (s ++ a :: rest).dropWhile isSepClass = a :: rest := by
  have hna := not_sep_of_digit a ha
  have hsp : isSepClass ' ' = true := by decide
  have hdot : isSepClass '.' = true := by decide
  have hdash : isSepClass '-' = true := by decide
  rcases hs with h | h | h | h <;> subst h <;>
    simp [List.takeWhile_cons, List.dropWhile_cons, hna, hsp, hdot, hdash]

/-- One `[\s.-]*\d{2}` group matches an optional single separator followed
by two digits, consuming exactly them. -/
theorem matchGroup_sep (s : List Char) (hs : okSepOpt s) (a b : Char)
    (ha : isDigitC a = true) (hb : isDigitC b = true) (rest : List Char) :
    matchGroup (s ++ a :: b :: rest) = some (s ++ [a, b], rest) := by
  obtain ⟨ht, hd⟩ := span_sep_digit s hs a ha (b :: rest)
  simp only [matchGroup, ht, hd, matchTwo, ha, hb, Bool.and_self, if_true]

/-- C4: the phone matcher accepts every string made of a prefix `+33`,
`0033` or `0`, a digit `1`-`9`, and four groups of two digits, each group
preceded by an independently chosen separator (space, dot, hyphen, or
nothing): the anchored matcher consumes the whole string and `findall`
returns it as the single match. -/
theorem c4_phone_accepts (p : List Char) (d : Char) (s1 s2 s3 s4 : List Char)
    (a1 b1 a2 b2 a3 b3 a4 b4 : Char) (w : List Char)
    (hp : p = "+33".toList ∨ p = "0033".toList ∨ p = ['0'])
    (hd : isNonZeroDigit d = true)
    (h1 : okSepOpt s1) (h2 : okSepOpt s2) (h3 : okSepOpt s3) (h4 : okSepOpt s4)
    (ha1 : isDigitC a1 = true) (hb1 : isDigitC b1 = true)
    (ha2 : isDigitC a2 = true) (hb2 : isDigitC b2 = true)
    (ha3 : isDigitC a3 = true) (hb3 : isDigitC b3 = true)
    (ha4 : isDigitC a4 = true) (hb4 : isDigitC b4 = true)
    (hw : w = p ++ d :: (s1 ++ a1 :: b1 ::
      (s2 ++ a2 :: b2 :: (s3 ++ a3 :: b3 :: (s4 ++ a4 :: b4 :: []))))) :
    phoneMatchAt w = some (w, []) ∧ pyFindall phoneMatchAt w = [w] := by
  have g4 := matchGroup_sep s4 h4 a4 b4 ha4 hb4 []
  have g3 := matchGroup_sep s3 h3 a3 b3 ha3 hb3 (s4 ++ a4 :: b4 :: [])
  have g2 := matchGroup_sep s2 h2 a2 b2 ha2 hb2 (s3 ++ a3 :: b3 :: (s4 ++ a4 :: b4 :: []))
  have g1 := matchGroup_sep s1 h1 a1 b1 ha1 hb1
    (s2 ++ a2 :: b2 :: (s3 ++ a3 :: b3 :: (s4 ++ a4 :: b4 :: [])))
  have hgs : matchGroups 4 (s1 ++ a1 :: b1 ::
      (s2 ++ a2 :: b2 :: (s3 ++ a3 :: b3 :: (s4 ++ a4 :: b4 :: [])))) =
      some ((s1 ++ [a1, b1]) ++ ((s2 ++ [a2, b2]) ++ ((s3 ++ [a3, b3]) ++
        ((s4 ++ [a4, b4]) ++ []))), []) := by
    simp only [matchGroups, g1, g2, g3, g4]
  have hdd : isDigitC d = true := isDigitC_of_nonzero d hd
  have hnspace : isPySpace d = false := by
    have h := not_sep_of_digit d hdd
    simp only [isSepClass, Bool.or_eq_false_iff] at h
    exact h.1.1
  have htl : phoneTail (d :: (s1 ++ a1 :: b1 ::
      (s2 ++ a2 :: b2 :: (s3 ++ a3 :: b3 :: (s4 ++ a4 :: b4 :: []))))) =
      some (d :: ((s1 ++ [a1, b1]) ++ ((s2 ++ [a2, b2]) ++ ((s3 ++ [a3, b3]) ++
        ((s4 ++ [a4, b4]) ++ [])))), []) := by
    simp only [phoneTail, List.dropWhile_cons, List.takeWhile_cons, hnspace, Bool.false_eq_true,
      if_false, hd, if_true, hgs, List.nil_append]
  have hdne : d ≠ '0' := ne_zero_of_nonzero d hd
  have hplus : ('0' : Char) ≠ '+' := by decide
  have hmain : phoneMatchAt w = some (w, []) := by
    rcases hp with h | h | h <;> subst h <;> subst hw
    · show phoneMatchAt ('+' :: '3' :: '3' :: (d :: (s1 ++ a1 :: b1 ::
        (s2 ++ a2 :: b2 :: (s3 ++ a3 :: b3 :: (s4 ++ a4 :: b4 :: [])))))) = _
      simp [phoneMatchAt, phoneIntl, htl, List.append_assoc]
    · show phoneMatchAt ('0' :: '0' :: '3' :: '3' :: (d :: (s1 ++ a1 :: b1 ::
        (s2 ++ a2 :: b2 :: (s3 ++ a3 :: b3 :: (s4 ++ a4 :: b4 :: [])))))) = _
      simp [phoneMatchAt, phoneIntl, hplus, htl, List.append_assoc]
    · show phoneMatchAt ('0' :: (d :: (s1 ++ a1 :: b1 ::
        (s2 ++ a2 :: b2 :: (s3 ++ a3 :: b3 :: (s4 ++ a4 :: b4 :: [])))))) = _
      rcases h1 with hs1 | hs1 | hs1 | hs1 <;> subst hs1 <;>
        simp only [List.cons_append, List.nil_append] at htl ⊢ <;>
        simp [phoneMatchAt, phoneIntl, phoneZero, hplus, hdne, htl, List.append_assoc]
  refine ⟨hmain, ?_⟩
  rcases hp with h | h | h <;> subst h <;> subst hw <;>
    exact findall_single phoneMatchAt _ _ _ hmain

theorem c4_phone_accepts_witness :
    phoneMatchAt "06 12.34-56 78".toList = some ("06 12.34-56 78".toList, []) ∧
    pyFindall phoneMatchAt "06 12.34-56 78".toList = ["06 12.34-56 78".toList] :=
  c4_phone_accepts ['0'] '6' [' '] ['.'] ['-'] [' '] '1' '2' '3' '4' '5' '6' '7' '8'
    "06 12.34-56 78".toList (Or.inr (Or.inr rfl)) (by decide)
    (Or.inr (Or.inl rfl)) (Or.inr (Or.inr (Or.inl rfl))) (Or.inr (Or.inr (Or.inr rfl)))
    (Or.inr (Or.inl rfl)) (by decide) (by decide) (by decide) (by decide) (by decide)
    (by decide) (by decide) (by decide) (by decide)

/-- A successful `\d{2}` match consumes exactly its two characters. -/
theorem matchTwo_sound (l m rest : List Char) (h : matchTwo l = some (m, rest)) :
    l = m ++ rest ∧ m ≠ [] := by
  rcases l with _ | ⟨a, _ | ⟨b, r⟩⟩
  · simp [matchTwo] at h
  · simp [matchTwo] at h
  · simp only [matchTwo] at h
    by_cases hc : (isDigitC a && isDigitC b) = true
    · rw [if_pos hc] at h
      simp only [Option.some.injEq, Prod.mk.injEq] at h
      obtain ⟨h1, h2⟩ := h
      subst h1
      subst h2
      exact ⟨rfl, by simp⟩
    · rw [if_neg hc] at h
      exact nomatch h

/-- A successful group match consumes exactly the matched text. -/
theorem matchGroup_sound (l m rest : List Char) (h : matchGroup l = some (m, rest)) :
    l = m ++ rest ∧ m ≠ [] := by
  simp only [matchGroup] at h
  cases h2 : matchTwo (l.dropWhile isSepClass) with
  | none => simp [h2] at h
  | some pr =>
    obtain ⟨dd, r⟩ := pr
    rw [h2] at h
    simp only [Option.some.injEq, Prod.mk.injEq] at h
    obtain ⟨h1, h3⟩ := h
    obtain ⟨hsp, hne⟩ := matchTwo_sound _ dd r h2
    constructor
    · rw [← h1, ← h3, List.append_assoc, ← hsp, List.takeWhile_append_dropWhile]
    · rw [← h1]
      intro hh
      exact hne (List.append_eq_nil.mp hh).2

/-- A successful group sequence consumes exactly the matched text. -/
theorem matchGroups_sound :
    ∀ (n : Nat) (l m rest : List Char), matchGroups n l = some (m, rest) → l = m ++ rest := by
  intro n
  induction n with
  | zero =>
    intro l m rest h
    simp only [matchGroups, Option.some.injEq, Prod.mk.injEq] at h
    obtain ⟨h1, h2⟩ := h
    subst h1
    subst h2
    rfl
  | succ n ih =>
    intro l m rest h
    simp only [matchGroups] at h
    cases hg : matchGroup l with
    | none => simp [hg] at h
    | some pr =>
      obtain ⟨g, r⟩ := pr
      simp only [hg] at h
      cases hgs : matchGroups n r with
      | none => simp [hgs] at h
      | some pr2 =>
        obtain ⟨gs, r2⟩ := pr2
        simp only [hgs, Option.some.injEq, Prod.mk.injEq] at h
        obtain ⟨h1, h2⟩ := h
        subst h1
        subst h2
        rw [(matchGroup_sound l g r hg).1, ih r gs r2 hgs, List.append_assoc]

/-- A successful phone-tail match consumes exactly the matched text. -/
theorem phoneTail_sound (l m rest : List Char) (h : phoneTail l = some (m, rest)) :
    l = m ++ rest ∧ m ≠ [] := by
  simp only [phoneTail] at h
  cases hd : l.dropWhile isPySpace with
  | nil => simp [hd] at h
  | cons c r =>
    simp only [hd] at h
    by_cases hc : isNonZeroDigit c = true
    · rw [if_pos hc] at h
      cases hgs : matchGroups 4 r with
      | none => simp [hgs] at h
      | some pr =>
        obtain ⟨gs, r2⟩ := pr
        rw [hgs] at h
        simp only [Option.some.injEq, Prod.mk.injEq] at h
        obtain ⟨h1, h2⟩ := h
        have hr : r = gs ++ r2 := matchGroups_sound 4 r gs r2 hgs
        have hl : l = l.takeWhile isPySpace ++ (c :: r) := by
          rw [← hd, List.takeWhile_append_dropWhile]
        constructor
        · rw [hl, hr, ← h1, ← h2]
          simp
        · rw [← h1]
          intro hh
          exact absurd (List.append_eq_nil.mp hh).2 (by simp)
    · rw [if_neg hc] at h
      exact nomatch h

/-- A successful international-prefix phone match consumes exactly the
matched text. -/
theorem phoneIntl_sound (l m rest : List Char) (h : phoneIntl l = some (m, rest)) :
    l = m ++ rest ∧ m ≠ [] := by
  rcases l with _ | ⟨c1, _ | ⟨c2, _ | ⟨c3, _ | ⟨c4, r'⟩⟩⟩⟩
  · simp [phoneIntl] at h
  · simp [phoneIntl] at h
  · simp [phoneIntl] at h
  · simp only [phoneIntl] at h
    by_cases hA : c1 = '+' ∧ c2 = '3' ∧ c3 = '3'
    · rw [if_pos hA, show phoneTail ([] : List Char) = none from rfl] at h
      exact nomatch h
    · rw [if_neg hA] at h
      exact nomatch h
  · simp only [phoneIntl] at h
    by_cases hA : c1 = '+' ∧ c2 = '3' ∧ c3 = '3'
    · rw [if_pos hA] at h
      cases ht : phoneTail (c4 :: r') with
      | none => simp [ht] at h
      | some pr =>
        obtain ⟨mm, rr⟩ := pr
        rw [ht] at h
        simp only [Option.map_some', Option.some.injEq, Prod.mk.injEq] at h
        obtain ⟨h1, h2⟩ := h
        obtain ⟨he, _⟩ := phoneTail_sound (c4 :: r') mm rr ht
        subst h1
        subst h2
        exact ⟨by rw [he]; rfl, by simp⟩
    · rw [if_neg hA] at h
      by_cases hB : c1 = '0' ∧ c2 = '0' ∧ c3 = '3' ∧ c4 = '3'
      · rw [if_pos hB] at h
        cases ht : phoneTail r' with
        | none => simp [ht] at h
        | some pr =>
          obtain ⟨mm, rr⟩ := pr
          rw [ht] at h
          simp only [Option.map_some', Option.some.injEq, Prod.mk.injEq] at h
          obtain ⟨h1, h2⟩ := h
          obtain ⟨he, _⟩ := phoneTail_sound r' mm rr ht
          subst h1
          subst h2
          exact ⟨by rw [he]; rfl, by simp⟩
      · rw [if_neg hB] at h
        exact nomatch h

/-- A successful national-prefix phone match consumes exactly the matched
text. -/
theorem phoneZero_sound (l m rest : List Char) (h : phoneZero l = some (m, rest)) :
    l = m ++ rest ∧ m ≠ [] := by
  rcases l with _ | ⟨c, r⟩
  · simp [phoneZero] at h
  · simp only [phoneZero] at h
    by_cases hc : c = '0'
    · rw [if_pos hc] at h
      cases ht : phoneTail r with
      | none => simp [ht] at h
      | some pr =>
        obtain ⟨mm, rr⟩ := pr
        rw [ht] at h
        simp only [Option.map_some', Option.some.injEq, Prod.mk.injEq] at h
        obtain ⟨h1, h2⟩ := h
        obtain ⟨he, _⟩ := phoneTail_sound r mm rr ht
        subst h1
        subst h2
        exact ⟨by rw [he]; rfl, by simp⟩
    · rw [if_neg hc] at h
      exact nomatch h

/-- A successful phone match consumes exactly the matched text. -/
theorem phoneMatchAt_sound :
    ∀ l m rest : List Char, phoneMatchAt l = some (m, rest) → l = m ++ rest ∧ m ≠ [] := by
  intro l m rest h
  simp only [phoneMatchAt] at h
  cases hI : phoneIntl l with
  | some x =>
    rw [hI] at h
    obtain rfl := Option.some.inj h
    exact phoneIntl_sound l m rest (by rw [hI])
  | none =>
    rw [hI] at h
    exact phoneZero_sound l m rest h

/-- A successful TLD match consumes exactly the matched text. -/
theorem dotTld_sound (l m rest : List Char) (h : dotTld l = some (m, rest)) :
    l = m ++ rest ∧ m ≠ [] := by
  rcases l with _ | ⟨c, r⟩
  · simp [dotTld] at h
  · simp only [dotTld] at h
    by_cases hc : c = '.' ∧ 2 ≤ (r.takeWhile Char.isAlpha).length
    · rw [if_pos hc] at h
      simp only [Option.some.injEq, Prod.mk.injEq] at h
      obtain ⟨h1, h2⟩ := h
      subst h1
      subst h2
      exact ⟨by rw [List.cons_append, List.takeWhile_append_dropWhile], by simp⟩
    · rw [if_neg hc] at h
      exact nomatch h

/-- A successful domain-and-TLD match consumes exactly the matched text. -/
theorem domainPlus_sound (l : List Char) :
    ∀ m rest : List Char, domainPlus l = some (m, rest) → l = m ++ rest ∧ m ≠ [] := by
  induction l with
  | nil =>
    intro m rest h
    simp [domainPlus] at h
  | cons c r ih =>
    intro m rest h
    simp only [domainPlus] at h
    by_cases hc : isDomainChar c = true
    · rw [if_pos hc] at h
      cases hrec : domainPlus r with
      | some pr =>
        obtain ⟨mm, rr⟩ := pr
        rw [hrec] at h
        simp only [Option.some.injEq, Prod.mk.injEq] at h
        obtain ⟨h1, h2⟩ := h
        subst h1
        subst h2
        exact ⟨by rw [(ih mm rr hrec).1]; rfl, by simp⟩
      | none =>
        rw [hrec] at h
        cases hdt : dotTld r with
        | none => simp [hdt] at h
        | some pr =>
          obtain ⟨mm, rr⟩ := pr
          rw [hdt] at h
          simp only [Option.map_some', Option.some.injEq, Prod.mk.injEq] at h
          obtain ⟨h1, h2⟩ := h
          subst h1
          subst h2
          exact ⟨by rw [(dotTld_sound r mm rr hdt).1]; rfl, by simp⟩
    · rw [if_neg hc] at h
      exact nomatch h

/-- A successful e-mail match consumes exactly the matched text. -/
theorem emailMatchAt_sound :
    ∀ l m rest : List Char, emailMatchAt l = some (m, rest) → l = m ++ rest ∧ m ≠ [] := by
  intro l m rest h
  simp only [emailMatchAt] at h
  cases htw : l.takeWhile isLocalChar with
  | nil => simp [htw] at h
  | cons a loc =>
    cases hdw : l.dropWhile isLocalChar with
    | nil => simp [htw, hdw] at h
    | cons c r =>
      simp only [htw, hdw] at h
      by_cases hc : c = '@'
      · rw [if_pos hc] at h
        cases hdm : domainPlus r with
        | none => simp [hdm] at h
        | some pr =>
          obtain ⟨mm, rr⟩ := pr
          rw [hdm] at h
          simp only [Option.map_some', Option.some.injEq, Prod.mk.injEq] at h
          obtain ⟨h1, h2⟩ := h
          subst h1
          subst h2
          have hl : l = (a :: loc) ++ (c :: r) := by
            rw [← htw, ← hdw, List.takeWhile_append_dropWhile]
          constructor
          · rw [hl, (domainPlus_sound r mm rr hdm).1]
            simp
          · simp
      · rw [if_neg hc] at h
        exact nomatch h

/-- Every recorded match lies at its recorded start position, positions
never precede the scanning position, and matches are nonempty.  The
hypothesis is the consumption property of the anchored matcher. -/
theorem findallPosAux_mem (f : List Char → Option (List Char × List Char))
    (hf : ∀ l m rest : List Char, f l = some (m, rest) → l = m ++ rest ∧ m ≠ []) :
    ∀ fuel pos l q m, (q, m) ∈ findallPosAux f fuel pos l →
      pos ≤ q ∧ (l.drop (q - pos)).take m.length = m ∧ m ≠ [] := by
  intro fuel
  induction fuel with
  | zero =>
    intro pos l q m h
    simp [findallPosAux] at h
  | succ fuel ih =>
    intro pos l q m h
    rcases l with _ | ⟨c, r⟩
    · simp [findallPosAux] at h
    · simp only [findallPosAux] at h
      cases hm : f (c :: r) with
      | none =>
        rw [hm] at h
        obtain ⟨h1, h2, h3⟩ := ih (pos + 1) r q m h
        refine ⟨by omega, ?_, h3⟩
        have hq : q - pos = (q - (pos + 1)) + 1 := by omega
        rw [hq, List.drop_succ_cons]
        exact h2
      | some pr =>
        obtain ⟨m0, rest⟩ := pr
        obtain ⟨heq, hne⟩ := hf (c :: r) m0 rest hm
        rw [hm] at h
        rcases List.mem_cons.mp h with h0 | h0
        · rw [Prod.mk.injEq] at h0
          obtain ⟨hq, hm0⟩ := h0
          subst hq
          subst hm0
          refine ⟨le_refl _, ?_, hne⟩
          rw [Nat.sub_self, List.drop_zero, heq]
          exact List.take_left _ _
        · have hconsumed : (c :: r).length - rest.length = m0.length := by
            rw [heq, List.length_append]
            omega
          rw [hconsumed] at h0
          obtain ⟨h1, h2, h3⟩ := ih (pos + m0.length) rest q m h0
          refine ⟨by omega, ?_, h3⟩
          have hq : q - pos = m0.length + (q - (pos + m0.length)) := by omega
          rw [heq, hq, List.drop_append]
          exact h2

/-- Recorded matches are non-overlapping and listed in strictly increasing
start-position order. -/
theorem findallPosAux_pairwise (f : List Char → Option (List Char × List Char))
    (hf : ∀ l m rest : List Char, f l = some (m, rest) → l = m ++ rest ∧ m ≠ []) :
    ∀ fuel pos l,
      (findallPosAux f fuel pos l).Pairwise (fun x y => x.1 + x.2.length ≤ y.1) := by
  intro fuel
  induction fuel with
  | zero =>
    intro pos l
    simp [findallPosAux]
  | succ fuel ih =>
    intro pos l
    rcases l with _ | ⟨c, r⟩
    · simp [findallPosAux]
    · cases hm : f (c :: r) with
      | none =>
        simp only [findallPosAux, hm]
        exact ih (pos + 1) r
      | some pr =>
        obtain ⟨m0, rest⟩ := pr
        obtain ⟨heq, hne⟩ := hf (c :: r) m0 rest hm
        have hconsumed : (c :: r).length - rest.length = m0.length := by
          rw [heq, List.length_append]
          omega
        simp only [findallPosAux, hm, hconsumed]
        refine List.pairwise_cons.mpr ⟨?_, ih _ _⟩
        intro y hy
        have hmem := findallPosAux_mem f hf fuel (pos + m0.length) rest y.1 y.2
          (by rw [Prod.mk.eta]; exact hy)
        exact hmem.1

/-- C5: the `phones` and `emails` of a record are exactly the `findall`
matches of the whole cell in scan order: recorded start positions are
strictly increasing (each next start lies at or beyond the previous start
plus the previous match's length, so matches are also non-overlapping),
and every recorded match occurs verbatim at its recorded position. -/
theorem c5_match_order (raw : List Char) :
    (parse_contact_info raw).phones = (pyFindallPos phoneMatchAt raw).map Prod.snd ∧
    (parse_contact_info raw).emails = (pyFindallPos emailMatchAt raw).map Prod.snd ∧
    (pyFindallPos phoneMatchAt raw).Pairwise (fun x y => x.1 + x.2.length ≤ y.1) ∧
    (pyFindallPos emailMatchAt raw).Pairwise (fun x y => x.1 + x.2.length ≤ y.1) ∧
    (∀ q m, (q, m) ∈ pyFindallPos phoneMatchAt raw →
      (raw.drop q).take m.length = m ∧ m ≠ []) ∧
    (∀ q m, (q, m) ∈ pyFindallPos emailMatchAt raw →
      (raw.drop q).take m.length = m ∧ m ≠ []) := by
  refine ⟨rfl, rfl, findallPosAux_pairwise _ phoneMatchAt_sound _ _ _,
    findallPosAux_pairwise _ emailMatchAt_sound _ _ _, ?_, ?_⟩
  · intro q m h
    have hmem := findallPosAux_mem _ phoneMatchAt_sound _ 0 raw q m h
    refine ⟨?_, hmem.2.2⟩
    have := hmem.2.1
    rwa [Nat.sub_zero] at this
  · intro q m h
    have hmem := findallPosAux_mem _ emailMatchAt_sound _ 0 raw q m h
    refine ⟨?_, hmem.2.2⟩
    have := hmem.2.1
    rwa [Nat.sub_zero] at this

theorem c5_match_order_witness :
    ((16 : Nat), "+33 6 98 76 54 32".toList) ∈ pyFindallPos phoneMatchAt reappearRaw ∧
    (reappearRaw.drop 16).take ("+33 6 98 76 54 32".toList.length) =
      "+33 6 98 76 54 32".toList :=
  ⟨by decide,
    ((c5_match_order reappearRaw).2.2.2.2.1 16 "+33 6 98 76 54 32".toList (by decide)).1⟩

/-- Prefixes are infixes. -/
theorem within_of_pre {m x : List Char} (h : m <+: x) : m <:+: x := by
  obtain ⟨t, ht⟩ := h
  exact ⟨[], t, by simp [ht]⟩

/-- A prefix of `a ++ ch :: b` that avoids `ch` is a prefix of `a`. -/
theorem pre_append_cons (ch : Char) (m a b : List Char) (h : m <+: a ++ ch :: b) :
    ch ∈ m ∨ m <+: a := by
  induction a generalizing m with
  | nil =>
    rcases m with _ | ⟨d, m'⟩
    · exact Or.inr List.nil_prefix
    · rw [List.nil_append] at h
      obtain ⟨hd, _⟩ := List.cons_prefix_cons.mp h
      subst hd
      exact Or.inl (List.mem_cons_self _ _)
  | cons x a' ih =>
    rcases m with _ | ⟨d, m'⟩
    · exact Or.inr List.nil_prefix
    · rw [List.cons_append] at h
      obtain ⟨hdx, hpre⟩ := List.cons_prefix_cons.mp h
      subst hdx
      rcases ih m' hpre with h1 | h1
      · exact Or.inl (List.mem_cons_of_mem _ h1)
      · exact Or.inr (List.cons_prefix_cons.mpr ⟨rfl, h1⟩)

/-- An occurrence inside `a ++ ch :: b` that avoids `ch` lies inside `a`
or inside `b`. -/
theorem within_append_cons (ch : Char) (m a b : List Char) (h : m <:+: a ++ ch :: b) :
    ch ∈ m ∨ m <:+: a ∨ m <:+: b := by
  induction a generalizing m with
  | nil =>
    rw [List.nil_append] at h
    rcases List.infix_cons_iff.mp h with h1 | h1
    · rcases m with _ | ⟨d, m'⟩
      · exact Or.inr (Or.inl List.nil_infix)
      · obtain ⟨hd, _⟩ := List.cons_prefix_cons.mp h1
        subst hd
        exact Or.inl (List.mem_cons_self _ _)
    · exact Or.inr (Or.inr h1)
  | cons x a' ih =>
    rw [List.cons_append] at h
    rcases List.infix_cons_iff.mp h with h1 | h1
    · rcases m with _ | ⟨d, m'⟩
      · exact Or.inr (Or.inl List.nil_infix)
      · obtain ⟨hdx, hpre⟩ := List.cons_prefix_cons.mp h1
        subst hdx
        rcases pre_append_cons ch m' a' b hpre with h2 | h2
        · exact Or.inl (List.mem_cons_of_mem _ h2)
        · exact Or.inr (Or.inl (within_of_pre (List.cons_prefix_cons.mpr ⟨rfl, h2⟩)))
    · rcases ih m h1 with h2 | h2 | h2
      · exact Or.inl h2
      · rcases h2 with ⟨s, t, hst⟩
        exact Or.inr (Or.inl ⟨x :: s, t, by rw [← hst]; rfl⟩)
      · exact Or.inr (Or.inr h2)

/-- A space-free nonempty string absent from every joined piece is absent
from the space-join. -/
theorem not_within_joinSp (m : List Char) (hm : m ≠ []) (hsp : ' ' ∉ m) :
    ∀ L : List (List Char), (∀ r ∈ L, ¬ m <:+: r) → ¬ m <:+: joinSp L := by
  intro L
  induction L with
  | nil =>
    intro _ hinf
    exact hm (List.eq_nil_of_infix_nil hinf)
  | cons a t ih =>
    intro hL hinf
    rcases t with _ | ⟨b, t'⟩
    · exact hL a (List.mem_cons_self a []) hinf
    · rcases within_append_cons ' ' m a (joinSp (b :: t')) hinf with h1 | h1 | h1
      · exact hsp h1
      · exact hL a (List.mem_cons_self _ _) h1
      · exact ih (fun r hr => hL r (List.mem_cons_of_mem a hr)) h1

/-- C3 (amended): matched substrings CAN reappear in `name` or `address`,
because deleting one matched substring may concatenate the surrounding
text into an occurrence of another match (see the counterexample).  What
does hold: any string absent from every residual line is absent from
`name`, and, when it contains no space, absent from `address` (a space
could only arise from the single-space join of the residual lines). -/
theorem c3_residual_guard (raw m : List Char)
    (hne : residualLines raw ≠ [])
    (h : ∀ r ∈ residualLines raw, ¬ m <:+: r) :
    ¬ m <:+: (parse_contact_info raw).name ∧
    (' ' ∉ m → ∀ a, (parse_contact_info raw).address = some a → ¬ m <:+: a) := by
  rcases hr : residualLines raw with _ | ⟨n, rest⟩
  · exact absurd hr hne
  · have hm : m ≠ [] := by
      intro hmm
      subst hmm
      exact h n (by rw [hr]; exact List.mem_cons_self _ _) List.nil_infix
    constructor
    · simp only [parse_contact_info, hr]
      exact h n (by rw [hr]; exact List.mem_cons_self _ _)
    · intro hsp a ha hinf
      simp only [parse_contact_info, hr] at ha
      by_cases hrest : rest.isEmpty
      · rw [if_pos hrest] at ha
        exact nomatch ha
      · rw [if_neg hrest] at ha
        obtain rfl := Option.some.inj ha
        exact not_within_joinSp m hm hsp rest
          (fun r hrr => h r (by rw [hr]; exact List.mem_cons_of_mem n hrr)) hinf

theorem c3_residual_guard_witness :
    ¬ "0612345678".toList <:+: (parse_contact_info "Jean Dupont\nParis".toList).name :=
  (c3_residual_guard "Jean Dupont\nParis".toList "0612345678".toList
    (by decide) (by decide)).1

/-- C3 counterexample: in `reappearRaw` the matched phone `0612 34 56 78`
is removed from line two before the international match, whose removal
then concatenates `06` with `12 34 56 78`; the recreated number survives
as the only residual line and becomes the record's `name`. -/
theorem c3_counterexample :
    "0612 34 56 78".toList ∈ (parse_contact_info reappearRaw).phones ∧
    "0612 34 56 78".toList <:+: (parse_contact_info reappearRaw).name :=
  ⟨by decide, by decide⟩
